import Mathlib

/-!
Verification development for the storefront chat agent's message-translation
and streaming-aggregation layer (`app/services/langchain.server.js`,
`app/services/claude.server.js`, and the two `openai.server.js` variants).

The JavaScript source is shallowly embedded: every definition below mirrors a
function or a code path of the repository.  JavaScript's dynamically shaped
values (the JSON payloads carried inside content blocks) are modelled by the
`Json` inductive; `JSON.stringify` and `JSON.parse` are modelled by
`Json.stringify` and `Json.parse`.
-/

/-- Model of a JavaScript JSON value.  Numbers are kept as their numeral
lexeme, which is all the translation layer ever inspects. -/
inductive Json where
  | null : Json
  | bool (b : Bool) : Json
  | num (lexeme : String) : Json
  | str (s : String) : Json
  | arr (elems : List Json) : Json
  | obj (fields : List (String × Json)) : Json

/-- The opening-brace character. -/
def braceOpen : Char := Char.ofNat 123

/-- The closing-brace character. -/
def braceClose : Char := Char.ofNat 125

/-- JavaScript truthiness of a JSON value (`""`, `0`, `false`, `null` are
falsy; every array and object is truthy). -/
def Json.truthy : Json → Bool
  | .null => false
  | .bool b => b
  | .num lexeme => lexeme ≠ "0" && lexeme ≠ ""
  | .str s => s ≠ ""
  | .arr _ => true
  | .obj _ => true

/-- Escapes one character for a JSON string literal, as `JSON.stringify`
does. -/
def jsonEscapeChar (c : Char) : String :=
  if c = '"' then "\\\""
  else if c = '\\' then "\\\\"
  else if c = '\n' then "\\n"
  else if c = '\t' then "\\t"
  else if c = '\r' then "\\r"
  else String.singleton c

/-- Escapes a whole string for a JSON string literal. -/
def jsonEscape (s : String) : String :=
  String.join (s.toList.map jsonEscapeChar)

mutual

/-- Model of `JSON.stringify` on a JSON value. -/
def Json.stringify : Json → String
  | .null => "null"
  | .bool b => if b then "true" else "false"
  | .num lexeme => lexeme
  | .str s => "\"" ++ jsonEscape s ++ "\""
  | .arr elems => "[" ++ Json.stringifyElems elems ++ "]"
  | .obj fields =>
      String.singleton braceOpen ++ Json.stringifyFields fields ++ String.singleton braceClose

/-- Stringifies the elements of a JSON array, comma-separated. -/
def Json.stringifyElems : List Json → String
  | [] => ""
  | [x] => Json.stringify x
  | x :: y :: xs => Json.stringify x ++ "," ++ Json.stringifyElems (y :: xs)

/-- Stringifies the fields of a JSON object, comma-separated. -/
def Json.stringifyFields : List (String × Json) → String
  | [] => ""
  | [(k, v)] => "\"" ++ jsonEscape k ++ "\":" ++ Json.stringify v
  | (k, v) :: f :: fs =>
      "\"" ++ jsonEscape k ++ "\":" ++ Json.stringify v ++ "," ++ Json.stringifyFields (f :: fs)

end

mutual

/-- Model of JavaScript's `String(value)` coercion on a JSON value (used by
`Array.prototype.join`): objects become `"[object Object]"`, arrays join
their elements with commas, `null` inside an array contributes `""`. -/
def Json.jsToString : Json → String
  | .null => "null"
  | .bool b => if b then "true" else "false"
  | .num lexeme => lexeme
  | .str s => s
  | .arr elems => Json.jsToStringElems elems
  | .obj _ => "[object Object]"

/-- `String(array)` semantics for the element list: `null` elements become
the empty string, the rest are stringified, and everything is joined with
commas. -/
def Json.jsToStringElems : List Json → String
  | [] => ""
  | [x] => (match x with | .null => "" | v => Json.jsToString v)
  | x :: y :: xs =>
      (match x with | .null => "" | v => Json.jsToString v) ++ "," ++
        Json.jsToStringElems (y :: xs)

end

/-- JSON insignificant whitespace. -/
def isJsonWs (c : Char) : Bool :=
  c = ' ' || c = '\t' || c = '\n' || c = '\r'

/-- Drops leading JSON whitespace. -/
def skipWs : List Char → List Char
  | [] => []
  | c :: cs => if isJsonWs c then skipWs cs else c :: cs

/-- Value of a hexadecimal digit, if the character is one. -/
def hexVal (c : Char) : Option Nat :=
  if '0' ≤ c ∧ c ≤ '9' then some (c.toNat - '0'.toNat)
  else if 'a' ≤ c ∧ c ≤ 'f' then some (c.toNat - 'a'.toNat + 10)
  else if 'A' ≤ c ∧ c ≤ 'F' then some (c.toNat - 'A'.toNat + 10)
  else none

/-- Parses the body of a JSON string literal (the opening quote already
consumed), decoding escapes; returns the decoded characters and the rest of
the input after the closing quote. -/
def parseJsonStringChars : List Char → Option (List Char × List Char)
  | [] => none
  | c :: cs =>
    if c = '"' then some ([], cs)
    else if c = '\\' then
      match cs with
      | [] => none
      | e :: cs2 =>
        if e = '"' then (parseJsonStringChars cs2).map (fun p => ('"' :: p.1, p.2))
        else if e = '\\' then (parseJsonStringChars cs2).map (fun p => ('\\' :: p.1, p.2))
        else if e = '/' then (parseJsonStringChars cs2).map (fun p => ('/' :: p.1, p.2))
        else if e = 'b' then (parseJsonStringChars cs2).map (fun p => (Char.ofNat 8 :: p.1, p.2))
        else if e = 'f' then (parseJsonStringChars cs2).map (fun p => (Char.ofNat 12 :: p.1, p.2))
        else if e = 'n' then (parseJsonStringChars cs2).map (fun p => ('\n' :: p.1, p.2))
        else if e = 'r' then (parseJsonStringChars cs2).map (fun p => ('\r' :: p.1, p.2))
        else if e = 't' then (parseJsonStringChars cs2).map (fun p => ('\t' :: p.1, p.2))
        else if e = 'u' then
          match cs2 with
          | h1 :: h2 :: h3 :: h4 :: cs3 =>
            match hexVal h1, hexVal h2, hexVal h3, hexVal h4 with
            | some v1, some v2, some v3, some v4 =>
              (parseJsonStringChars cs3).map
                (fun p => (Char.ofNat (((v1 * 16 + v2) * 16 + v3) * 16 + v4) :: p.1, p.2))
            | _, _, _, _ => none
          | _ => none
        else none
    else (parseJsonStringChars cs).map (fun p => (c :: p.1, p.2))

/-- Splits off a maximal run of decimal digits. -/
def spanDigits : List Char → (List Char × List Char)
  | [] => ([], [])
  | c :: cs =>
    if c.isDigit then
      let p := spanDigits cs
      (c :: p.1, p.2)
    else ([], c :: cs)

/-- Lexes a JSON number (sign, integer part, optional fraction and exponent);
returns the numeral lexeme and the rest of the input. -/
def parseNumberLex (cs : List Char) : Option (String × List Char) :=
  let (sign, cs1) := match cs with
    | '-' :: cs' => (['-'], cs')
    | _ => (([] : List Char), cs)
  let (intPart, cs2) := spanDigits cs1
  if intPart.isEmpty then none
  else
    let (fracPart, cs3) := match cs2 with
      | '.' :: cs' =>
        let p := spanDigits cs'
        if p.1.isEmpty then (([] : List Char), cs2) else ('.' :: p.1, p.2)
      | _ => ([], cs2)
    let (expPart, cs4) := match cs3 with
      | e :: cs' =>
        if e = 'e' ∨ e = 'E' then
          let (esign, cs'') := match cs' with
            | '+' :: r => (['+'], r)
            | '-' :: r => (['-'], r)
            | _ => (([] : List Char), cs')
          let p := spanDigits cs''
          if p.1.isEmpty then (([] : List Char), cs3) else (e :: (esign ++ p.1), p.2)
        else ([], cs3)
      | [] => ([], cs3)
    some (String.mk (sign ++ intPart ++ fracPart ++ expPart), cs4)

/-- The three recursive-descent entry points of the JSON grammar: a whole
value, the members of an object, the elements of an array. -/
inductive ParseMode where
  | value : ParseMode
  | objMembers : ParseMode
  | arrElems : ParseMode

/-- Fuel-based recursive-descent parser for the JSON grammar, modelling
`JSON.parse`.  The fuel only serves Lean's termination; `Json.parse` supplies
enough for any input. -/
def parseCore : Nat → ParseMode → List Char → Option (Json × List Char)
  | 0, _, _ => none
  | fuel + 1, .value, cs =>
    match skipWs cs with
    | [] => none
    | c :: rest =>
      if c = '"' then
        (parseJsonStringChars rest).map (fun p => (Json.str (String.mk p.1), p.2))
      else if c = braceOpen then
        match skipWs rest with
        | c2 :: rest2 =>
          if c2 = braceClose then some (Json.obj [], rest2)
          else parseCore fuel .objMembers (c2 :: rest2)
        | [] => none
      else if c = '[' then
        match skipWs rest with
        | ']' :: rest2 => some (Json.arr [], rest2)
        | rest2 => parseCore fuel .arrElems rest2
      else if c = 't' then
        match rest with
        | 'r' :: 'u' :: 'e' :: r => some (Json.bool true, r)
        | _ => none
      else if c = 'f' then
        match rest with
        | 'a' :: 'l' :: 's' :: 'e' :: r => some (Json.bool false, r)
        | _ => none
      else if c = 'n' then
        match rest with
        | 'u' :: 'l' :: 'l' :: r => some (Json.null, r)
        | _ => none
      else
        (parseNumberLex (c :: rest)).map (fun p => (Json.num p.1, p.2))
  | fuel + 1, .objMembers, cs =>
    match skipWs cs with
    | '"' :: rest =>
      match parseJsonStringChars rest with
      | none => none
      | some (keyChars, rest2) =>
        match skipWs rest2 with
        | ':' :: rest3 =>
          match parseCore fuel .value rest3 with
          | none => none
          | some (v, rest4) =>
            match skipWs rest4 with
            | ',' :: rest5 =>
              match parseCore fuel .objMembers rest5 with
              | some (Json.obj fields, rest6) =>
                some (Json.obj ((String.mk keyChars, v) :: fields), rest6)
              | _ => none
            | c :: rest5 =>
              if c = braceClose then some (Json.obj [(String.mk keyChars, v)], rest5)
              else none
            | [] => none
        | _ => none
    | _ => none
  | fuel + 1, .arrElems, cs =>
    match parseCore fuel .value cs with
    | none => none
    | some (v, rest) =>
      match skipWs rest with
      | ',' :: rest2 =>
        match parseCore fuel .arrElems rest2 with
        | some (Json.arr elems, rest3) => some (Json.arr (v :: elems), rest3)
        | _ => none
      | ']' :: rest2 => some (Json.arr [v], rest2)
      | _ => none

/-- Model of `JSON.parse`: parses a complete JSON document, rejecting
trailing garbage; returns `none` exactly when `JSON.parse` would throw. -/
def Json.parse (s : String) : Option Json :=
  match parseCore (2 * s.length + 4) .value s.toList with
  | some (j, rest) => if (skipWs rest).isEmpty then some j else none
  | none => none

example : Json.parse "\x7b\"q\": \"ball\"\x7d" = some (Json.obj [("q", Json.str "ball")]) := by
  rfl

example : Json.parse "\x7b\"q\":" = none := by rfl

example : Json.parse "" = none := by rfl

example : Json.parse "[1, 2]" = some (Json.arr [Json.num "1", Json.num "2"]) := by rfl

/-!
## Canonical message model

Claude-format conversation messages as stored by the app: a `role` plus a
`content` that is a string, an array of content blocks, a single block
object, `null`, or some other JSON value.  The optional `id` /
`tool_call_id` fields are read only by `buildLangChainMessages` for
`tool`-role messages.
-/

/-- One element of a Claude-format content array. -/
inductive CItem where
  | text (t : Option String)
  | toolUse (id : String) (name : String) (input : Json)
  | toolResult (toolUseId : String) (content : Option Json)
  | str (s : String)
  | imageUrl (u : Json)
  | other (j : Json)

/-- The JSON object a content item denotes (what `JSON.stringify` would
see). -/
def CItem.toJson : CItem → Json
  | .text (some s) => .obj [("type", .str "text"), ("text", .str s)]
  | .text none => .obj [("type", .str "text")]
  | .toolUse id name input =>
      .obj [("type", .str "tool_use"), ("id", .str id), ("name", .str name), ("input", input)]
  | .toolResult tid (some c) =>
      .obj [("type", .str "tool_result"), ("tool_use_id", .str tid), ("content", c)]
  | .toolResult tid none => .obj [("type", .str "tool_result"), ("tool_use_id", .str tid)]
  | .str s => .str s
  | .imageUrl u => .obj [("type", .str "image_url"), ("image_url", u)]
  | .other j => j

/-- A canonical message's `content` field. -/
inductive CContent where
  | str (s : String)
  | items (blocks : List CItem)
  | single (block : CItem)
  | nullc
  | other (j : Json)

/-- A canonical (Claude-format) conversation message. -/
structure CMessage where
  role : String
  content : CContent
  id : Option String := none
  tool_call_id : Option String := none

/-!
## Raw OpenAI adapter: outbound request conversion

Models the message-conversion loop of `streamConversation` in the raw
`openai.server.js` variant.
-/

/-- One entry of the assistant's OpenAI `tool_calls` array; the constant
`type: "function"` field is implicit. -/
structure OToolCall where
  id : String
  name : String
  arguments : String
deriving DecidableEq

/-- One OpenAI chat-completion request message.  `content = none` models both
an absent field and JavaScript `null` (the request serializer drops both). -/
structure OMessage where
  role : String
  content : Option Json := none
  tool_call_id : Option String := none
  tool_calls : List OToolCall := []

/-- Is the item a `text` block? -/
def isTextItem : CItem → Bool
  | .text _ => true
  | _ => false

/-- Does the content array contain a `tool_result` block?  Mirrors
`content.some(item => item.type === 'tool_result')`. -/
def hasToolResults (items : List CItem) : Bool :=
  items.any fun it => match it with
    | .toolResult _ _ => true
    | _ => false

/-- The OpenAI `tool_calls` extracted from an assistant content array:
every `tool_use` block, in order, with its `input` serialized to a JSON
string. -/
def assistantToolCalls (items : List CItem) : List OToolCall :=
  items.filterMap fun it => match it with
    | .toolUse id name input => some ⟨id, name, Json.stringify input⟩
    | _ => none

/-- Is the optional JSON value JavaScript-falsy (absent, `null`, `""`,
`0`, `false`)? -/
def jsFalsyOpt : Option Json → Bool
  | none => true
  | some j => !j.truthy

/-- The assistant entry's `content` before the `delete` step: the single
text block's text when there is exactly one, the block array when several,
`null` when none. -/
def assistantRawContent (textItems : List CItem) : Option Json :=
  match textItems with
  | [] => none
  | [CItem.text t] => (match t with | some s => some (.str s) | none => none)
  | [it] => some (.arr [it.toJson])
  | l => some (.arr (l.map CItem.toJson))

/-- The converted assistant entry (content plus `tool_calls`), including the
"remove null content if tool_calls exist" step. -/
def asstEntry (items : List CItem) : OMessage :=
  let tcs := assistantToolCalls items
  let rawC := assistantRawContent (items.filter isTextItem)
  { role := "assistant"
  , content := if tcs ≠ [] ∧ jsFalsyOpt rawC then none else rawC
  , tool_calls := tcs }

/-- The `(tool_use_id, content)` pairs of a tool-result batch, in order. -/
def batchToolResults (items : List CItem) : List (String × Option Json) :=
  items.filterMap fun it => match it with
    | .toolResult tid c => some (tid, c)
    | _ => none

/-- `toolResultMap.get(id)`: the last stored content for the id, with a
stored JavaScript `undefined` indistinguishable from a missing entry. -/
def lookupToolResult (items : List CItem) (id : String) : Option Json :=
  match (batchToolResults items).reverse.find? (fun p => p.1 = id) with
  | some p => p.2
  | none => none

/-- The string placed in a tool reply: the correlated result itself when it
is a string, its `JSON.stringify` otherwise, and `""` when the batch holds
no result for the id. -/
def toolReplyContent (items : List CItem) (id : String) : String :=
  match lookupToolResult items id with
  | some (.str s) => s
  | some j => Json.stringify j
  | none => ""

/-- One tool-role reply entry. -/
def toolReplyMsg (id : String) (content : String) : OMessage :=
  { role := "tool", tool_call_id := some id, content := some (.str content) }

/-- The tool-role replies for an invocation batch answered by the given
tool-result items: one per tool call, in tool-call order. -/
def toolReplies (tcs : List OToolCall) (batchItems : List CItem) : List OMessage :=
  tcs.map fun tc => toolReplyMsg tc.id (toolReplyContent batchItems tc.id)

/-- The tool-role replies emitted when no tool-result batch follows: one
empty reply per tool call. -/
def emptyToolReplies (tcs : List OToolCall) : List OMessage :=
  tcs.map fun tc => toolReplyMsg tc.id ""

/-- The `textContent` pieces collected from a user content array:
`tool_result` blocks are skipped, a `text` block contributes its text when
truthy and the block object itself otherwise, a raw string contributes
itself, anything else its `JSON.stringify`. -/
def batchTextPieces (items : List CItem) : List Json :=
  items.filterMap fun it => match it with
    | .toolResult _ _ => none
    | .text (some s) => some (if s = "" then (CItem.text (some s)).toJson else .str s)
    | .text none => some ((CItem.text none).toJson)
    | .str s => some (.str s)
    | it => some (.str (Json.stringify it.toJson))

/-- `textContent.length === 1 ? textContent[0] : textContent.join('\n')`. -/
def joinedTextContent (pieces : List Json) : Json :=
  match pieces with
  | [p] => p
  | l => .str (String.intercalate "\n" (l.map Json.jsToString))

/-- The trailing user message carrying a batch's leftover text, when any. -/
def trailingUserMessages (items : List CItem) : List OMessage :=
  let pieces := batchTextPieces items
  if pieces.isEmpty then []
  else [{ role := "user", content := some (joinedTextContent pieces) }]

/-- The converted entry for a regular user message with an array content and
no tool results. -/
def userEntry (items : List CItem) : OMessage :=
  { role := "user", content := some (joinedTextContent (batchTextPieces items)) }

/-- The `content` computed by the final fallback branch ("simple text
message") for any other message shape. -/
def elseContentJson : CContent → Json
  | .str s => .str s
  | .items l =>
      .str (String.join (l.map fun c => match c with
        | .str s => s
        | .text (some s) => if s = "" then Json.stringify (CItem.text (some s)).toJson else s
        | c' => Json.stringify c'.toJson))
  | .single it => .str (Json.stringify it.toJson)
  | .nullc => .str "null"
  | .other j => .str (Json.stringify j)

/-- The fallback entry `{role: message.role, content: ...}`. -/
def elseEntry (m : CMessage) : OMessage :=
  { role := m.role, content := some (elseContentJson m.content) }

/-- Is the message a user message whose array content carries tool results
(the shape the assistant branch consumes as its following batch)? -/
def isBatchMsg (m : CMessage) : Bool :=
  m.role = "user" && (match m.content with
    | .items l => hasToolResults l
    | _ => false)

/-- The tool-result batch offered by the (optional) following message: its
content items when it is a user message whose array content carries tool
results (`i + 1 < messages.length && next.role === 'user' &&
Array.isArray(next.content) && hasToolResults`), `none` otherwise. -/
def batchOf : Option CMessage → Option (List CItem)
  | some n =>
    if n.role = "user" then
      match n.content with
      | .items nitems => if hasToolResults nitems then some nitems else none
      | _ => none
    else none
  | none => none

/-- One iteration of the conversion loop: the entries emitted for message
`m` given the batch offered by the following message, and whether that
following message is consumed as this assistant message's tool-result
batch. -/
def stepEmit (hasSys : Bool) (m : CMessage) (nb : Option (List CItem)) : List OMessage × Bool :=
  if m.role = "system" && !hasSys then ([], false)
  else if m.role = "assistant" then
    match m.content with
    | .items items =>
      let tcs := assistantToolCalls items
      let entry := asstEntry items
      if tcs.isEmpty then ([entry], false)
      else
        match nb with
        | some nitems =>
            (entry :: (toolReplies tcs nitems ++ trailingUserMessages nitems), true)
        | none => (entry :: emptyToolReplies tcs, false)
    | _ => ([elseEntry m], false)
  else if m.role = "user" then
    match m.content with
    | .items items =>
      if hasToolResults items then ([], false)
      else ([userEntry items], false)
    | _ => ([elseEntry m], false)
  else ([elseEntry m], false)

/-- The conversion loop over the canonical history: each step emits its
entries and skips the following message when it was consumed as a
tool-result batch. -/
def convertLoop (hasSys : Bool) : List CMessage → List OMessage
  | [] => []
  | m :: rest =>
    let s := stepEmit hasSys m (batchOf rest.head?)
    s.1 ++ convertLoop hasSys (if s.2 then rest.tail else rest)
termination_by ms => ms.length
decreasing_by
  simp only [List.length_cons]
  split
  · cases rest with
    | nil => simp
    | cons a t => simp only [List.tail_cons, List.length_cons]; omega
  · omega

/-- `messages.some(msg => msg.role === 'system')`. -/
def hasSystemMessage (messages : List CMessage) : Bool :=
  messages.any fun m => m.role = "system"

/-- JavaScript truthiness of an optional string. -/
def truthyStrOpt : Option String → Bool
  | some s => s ≠ ""
  | none => false

/-- The leading system entry added when no canonical system message is
present and the instruction is non-empty. -/
def systemPrefix (systemInstruction : Option String) (messages : List CMessage) : List OMessage :=
  if !hasSystemMessage messages && truthyStrOpt systemInstruction then
    [{ role := "system", content := some (.str (systemInstruction.getD "")) }]
  else []

/-- The full request message list built by the raw OpenAI variant's
`streamConversation` (README `openai.server.js`, conversion section). -/
def buildOpenAIMessages (systemInstruction : Option String) (messages : List CMessage) :
    List OMessage :=
  systemPrefix systemInstruction messages ++ convertLoop (hasSystemMessage messages) messages

/-!
## Raw OpenAI adapter: streaming aggregation

Models the stream-processing loop and finalization of `streamConversation`
in the raw `openai.server.js` variant.
-/

/-- One element of `delta.tool_calls` in a stream chunk. -/
structure ToolCallDelta where
  index : Nat
  id : Option String := none
  name : Option String := none
  arguments : Option String := none

/-- `chunk.choices[0]`: the delta fields and the finish reason. -/
structure Choice where
  content : Option String := none
  tool_calls : List ToolCallDelta := []
  finish_reason : Option String := none

/-- A partially accumulated tool call (`accumulatedToolCalls[i]`); the
constant `type: "function"` field is implicit. -/
structure AccToolCall where
  id : String
  name : String
  arguments : String
deriving DecidableEq

/-- A content block of the finalized Claude-format assistant message. -/
inductive FBlock where
  | text (t : String)
  | toolUse (id : String) (name : String) (input : Json)

/-- Is the block a `tool_use` block? -/
def FBlock.isToolUse : FBlock → Bool
  | .toolUse _ _ _ => true
  | _ => false

/-- Replaces the element at an index by applying `f` (out-of-range leaves
the list unchanged). -/
def modifyAt (i : Nat) (f : α → α) : List α → List α
  | [] => []
  | x :: xs =>
    match i with
    | 0 => f x :: xs
    | i + 1 => x :: modifyAt i f xs

/-- Applies one tool-call delta to the accumulator: a new index pushes a
fresh entry seeded from the delta; an existing index appends the delta's
name and argument fragments. -/
def applyTCDelta (tcs : List AccToolCall) (d : ToolCallDelta) : List AccToolCall :=
  if tcs.length ≤ d.index then
    tcs ++ [⟨d.id.getD "", d.name.getD "", d.arguments.getD ""⟩]
  else
    modifyAt d.index
      (fun tc =>
        { tc with
          name := tc.name ++ d.name.getD ""
          , arguments := tc.arguments ++ d.arguments.getD "" })
      tcs

/-- The raw variant's inline finish-reason mapping: `'stop'` becomes
`'end_turn'`, `'tool_calls'` clears the stop reason to `null`, anything
else passes through. -/
def mapRawFinish (fr : String) : Option String :=
  if fr = "stop" then some "end_turn"
  else if fr = "tool_calls" then none
  else some fr

/-- The turn-local accumulation state of the raw streaming loop. -/
structure RawAggState where
  accumulatedContent : List String := []
  accumulatedToolCalls : List AccToolCall := []
  stop_reason : Option String := none

/-- Processing of one stream chunk (`none` models a chunk without a
choice, which is skipped): text deltas are pushed as fragments, tool-call
deltas accumulated by index, a truthy finish reason mapped and stored. -/
def rawStep (s : RawAggState) (ev : Option Choice) : RawAggState :=
  match ev with
  | none => s
  | some ch =>
    let s1 := match ch.content with
      | some t =>
          if t = "" then s
          else { s with accumulatedContent := s.accumulatedContent ++ [t] }
      | none => s
    let s2 := { s1 with accumulatedToolCalls := ch.tool_calls.foldl applyTCDelta s1.accumulatedToolCalls }
    match ch.finish_reason with
    | some fr => if fr = "" then s2 else { s2 with stop_reason := mapRawFinish fr }
    | none => s2

/-- The accumulation state after consuming a whole event stream. -/
def streamAccState (evs : List (Option Choice)) : RawAggState :=
  evs.foldl rawStep {}

/-- The `tool_use` block obtained from an accumulated tool call, when its
argument text parses as JSON. -/
def parsedToolBlock (tc : AccToolCall) : Option FBlock :=
  (Json.parse tc.arguments).map fun args => FBlock.toolUse tc.id tc.name args

/-- One iteration of a try-parse-then-push loop: append the block when the
parse succeeds, keep the accumulator otherwise (the `catch` branch only
logs). -/
def pushParsed (acc : List FBlock) (tc : AccToolCall) : List FBlock :=
  match parsedToolBlock tc with
  | some b => acc ++ [b]
  | none => acc

/-- Finalize's tool-block loop: for each accumulated call in order, parse
the arguments and append a `tool_use` block, skipping (only) the calls whose
arguments fail to parse. -/
def rawFinalToolBlocks (tcs : List AccToolCall) : List FBlock :=
  tcs.foldl pushParsed []

/-- The finalized Claude-format assistant message of the raw variant: one
text block per accumulated fragment followed by the parsed `tool_use`
blocks, with the last mapped finish reason. -/
structure FinalMessage where
  role : String
  content : List FBlock
  stop_reason : Option String

/-- `streamConversation`'s final message for a given event stream. -/
def rawFinalMessage (evs : List (Option Choice)) : FinalMessage :=
  let s := streamAccState evs
  { role := "assistant"
  , content := s.accumulatedContent.map FBlock.text ++ rawFinalToolBlocks s.accumulatedToolCalls
  , stop_reason := s.stop_reason }

/-- The dispatch loop run after the stream completes: for each accumulated
tool call in order, parse the arguments and await `onToolUse` on the
converted block, skipping the calls whose arguments fail to parse.  The
returned list is the ordered trace of `onToolUse` invocations; the loop
awaits each invocation before starting the next one. -/
def rawDispatchLoop (tcs : List AccToolCall) : List FBlock :=
  tcs.foldl pushParsed []

/-- The ordered `onToolUse` trace of the raw variant for a stream. -/
def rawDispatchTrace (evs : List (Option Choice)) : List FBlock :=
  rawDispatchLoop (streamAccState evs).accumulatedToolCalls

/-- `mapOpenAiFinishReason` of the LangChain `openai.server.js` variant. -/
def mapOpenAiFinishReason : Option String → Option String
  | none => none
  | some fr =>
    if fr = "" then none
    else if fr = "stop" then some "end_turn"
    else if fr = "length" then some "max_tokens"
    else if fr = "tool_calls" then none
    else some fr

/-!
## Tool-catalog conversion
-/

/-- A Claude-format tool declaration. -/
structure ToolDecl where
  name : String
  description : Option String := none
  input_schema : Option Json := none

/-- An OpenAI tool definition `{type: "function", function: {...}}`; the
constant `type` field is implicit. -/
structure OToolDef where
  fnName : String
  fnDescription : String
  parameters : Json

/-- The default parameters object substituted for a falsy `input_schema`
by `convertClaudeToolsToOpenAITools`. -/
def defaultSchema : Json :=
  .obj [("type", .str "object"), ("properties", .obj []), ("additionalProperties", .bool true)]

/-- `tool.input_schema || <default schema>`. -/
def schemaOrDefault (s : Option Json) : Json :=
  match s with
  | some j => if j.truthy then j else defaultSchema
  | none => defaultSchema

/-- `convertClaudeToolsToOpenAITools` (`langchain.server.js`): a non-array
or empty catalog yields `undefined`, otherwise each declaration is reshaped
to the OpenAI function shape. -/
def convertClaudeToolsToOpenAITools : Option (List ToolDecl) → Option (List OToolDef)
  | none => none
  | some tools =>
    if tools.isEmpty then none
    else some (tools.map fun t => ⟨t.name, t.description.getD "", schemaOrDefault t.input_schema⟩)

/-- The Claude service's `callOptions.tools`: the catalog is attached
unchanged when non-empty, omitted otherwise (`claude.server.js`). -/
def claudeCallOptionsTools : Option (List ToolDecl) → Option (List ToolDecl)
  | none => none
  | some l => if l.isEmpty then none else some l

/-- The raw OpenAI variant's inline tool conversion: like
`convertClaudeToolsToOpenAITools` but with `{}` as the fallback
parameters object. -/
def rawOpenaiTools : Option (List ToolDecl) → Option (List OToolDef)
  | none => none
  | some l =>
    if l.isEmpty then none
    else
      some (l.map fun t =>
        ⟨t.name
        , t.description.getD ""
        , match t.input_schema with
          | some j => if j.truthy then j else Json.obj []
          | none => Json.obj []⟩)

/-!
## LangChain conversion layer (`langchain.server.js`)
-/

/-- First truthy of an optional string and a fallback
(JavaScript `a || b`). -/
def truthyOr (o : Option String) (els : String) : String :=
  match o with
  | some s => if s = "" then els else s
  | none => els

/-- A content block produced by `normalizeContentBlock`. -/
inductive NBlock where
  | text (t : String)
  | toolUse (id : String) (name : String) (input : Json)
  | toolResult (tid : String) (content : Option Json)
  | imageUrl (u : Json)
  | other (j : Json)

/-- `normalizeContentBlock`: strings become text blocks, known block kinds
are rebuilt with their defaults, non-objects degrade to stringified text
blocks, anything else is passed through as a shallow copy. -/
def normalizeContentBlock : CItem → NBlock
  | .str s => .text s
  | .text t => .text (t.getD "")
  | .toolUse id name input => .toolUse id name input
  | .toolResult tid c => .toolResult tid c
  | .imageUrl u => .imageUrl u
  | .other .null => .text ""
  | .other (.obj f) => .other (.obj f)
  | .other j => .text (Json.jsToString j)

/-- The result shape of `normalizeContent`: a plain string or a block
list. -/
inductive NContent where
  | str (s : String)
  | blocks (l : List NBlock)

/-- `normalizeContent`: `null`/`undefined` become `""`, strings pass
through, arrays are normalized blockwise, a single typed block becomes a
one-block list, anything else is stringified. -/
def normalizeContent : CContent → NContent
  | .nullc => .str ""
  | .str s => .str s
  | .items l => .blocks (l.map normalizeContentBlock)
  | .single it => .blocks [normalizeContentBlock it]
  | .other j => .str (Json.stringify j)

/-- A LangChain tool-call record (`{id, name, args, type: 'tool_call'}`). -/
structure LCToolCall where
  id : Option String := none
  name : String
  args : Option Json := none

/-- `extractToolCalls`: the `tool_use` blocks of an array content, as
LangChain tool calls; non-array content yields `[]`. -/
def extractToolCalls : CContent → List LCToolCall
  | .items l =>
    l.filterMap fun it => match it with
      | .toolUse id name input => some ⟨some id, name, some input⟩
      | _ => none
  | _ => []

/-- `isToolResultContent`: a non-empty array of only `tool_result`
blocks. -/
def isToolResultContent : CContent → Bool
  | .items l =>
    !l.isEmpty && l.all fun it => match it with
      | .toolResult _ _ => true
      | _ => false
  | _ => false

/-- `safeStringify`: strings pass through, other values are
JSON-stringified. -/
def safeStringify : Json → String
  | .str s => s
  | j => Json.stringify j

/-- JavaScript property read on an object's field list (last write wins). -/
def objGet (fields : List (String × Json)) (k : String) : Option Json :=
  match fields.reverse.find? (fun p => p.1 = k) with
  | some p => some p.2
  | none => none

/-- One part of an array-shaped tool-result content: strings pass through,
`{type:'text'}` blocks with a string text yield it, the rest are
safe-stringified. -/
def serializeToolResultPart (p : Json) : String :=
  match p with
  | .str s => s
  | .obj f =>
    (match objGet f "type", objGet f "text" with
     | some (.str "text"), some (.str t) => t
     | _, _ => safeStringify (.obj f))
  | j => safeStringify j

/-- `serializeToolResultContent` on a tool-result block's JSON-ish content
value (`none` models `undefined`). -/
def serializeToolResultJson : Option Json → String
  | none => ""
  | some .null => ""
  | some (.str s) => s
  | some (.arr parts) => String.intercalate "\n" (parts.map serializeToolResultPart)
  | some (.obj f) =>
    (match objGet f "text" with
     | some (.str t) => t
     | _ => safeStringify (.obj f))
  | some j => safeStringify j

/-- `serializeToolResultContent` on a whole canonical `content` field (the
`tool`-role path of `buildLangChainMessages`). -/
def serializeToolResultCContent : CContent → String
  | .nullc => ""
  | .str s => s
  | .items l =>
    String.intercalate "\n"
      (l.map fun it => match it with
        | .str s => s
        | .text (some s) => s
        | it => safeStringify it.toJson)
  | .single it =>
    (match it with
     | .text (some s) => s
     | it => safeStringify it.toJson)
  | .other j => serializeToolResultJson (some j)

/-- A LangChain message as constructed by `buildLangChainMessages`. -/
inductive LCMessage where
  | system (content : String)
  | ai (content : NContent) (tool_calls : List LCToolCall)
  | human (content : NContent)
  | tool (content : String) (tool_call_id : String)

/-- Is the entry a `SystemMessage`? -/
def LCMessage.isSystem : LCMessage → Bool
  | .system _ => true
  | _ => false

/-- One step of the tool-result split: append the `ToolMessage` for one
block of the batch (the accumulator's length feeds the fallback id
`tool_<index>`). -/
def toolSplitStep (acc2 : List LCMessage) (it : CItem) : List LCMessage :=
  acc2 ++ [match it with
    | CItem.toolResult tid c =>
        LCMessage.tool (serializeToolResultJson c)
          (if tid = "" then "tool_" ++ toString acc2.length else tid)
    | _ => LCMessage.tool "" ("tool_" ++ toString acc2.length)]

/-- The per-block split of a tool-result-only user message into
`ToolMessage`s, appended to the accumulator. -/
def toolResultSplit (acc : List LCMessage) : CContent → List LCMessage
  | .items l => l.foldl toolSplitStep acc
  | _ => acc

/-- One iteration of `buildLangChainMessages`' loop: system messages are
skipped, assistant messages become `AIMessage`s, tool-result-only user
messages are split into `ToolMessage`s, other user messages become
`HumanMessage`s, tool messages become `ToolMessage`s, unknown roles are
dropped. -/
def buildStep (acc : List LCMessage) (m : CMessage) : List LCMessage :=
  if m.role = "system" then acc
  else if m.role = "assistant" then
    acc ++ [.ai (normalizeContent m.content) (extractToolCalls m.content)]
  else if m.role = "user" then
    if isToolResultContent m.content then toolResultSplit acc m.content
    else acc ++ [.human (normalizeContent m.content)]
  else if m.role = "tool" then
    acc ++ [.tool (serializeToolResultCContent m.content)
      (truthyOr m.tool_call_id (truthyOr m.id ("tool_" ++ toString acc.length)))]
  else acc

/-- `buildLangChainMessages`: an optional truthy system instruction is
prepended as a `SystemMessage`, then the stored history is converted
message by message. -/
def buildLangChainMessages (messages : List CMessage) (systemInstruction : Option String) :
    List LCMessage :=
  let init : List LCMessage :=
    match systemInstruction with
    | some s => if s = "" then [] else [.system s]
    | none => []
  messages.foldl buildStep init

/-!
## `convertAIMessageLikeToClaudeMessage` (`langchain.server.js`)
-/

/-- A content block inside a LangChain AI message chunk's array content. -/
inductive LCItem where
  | text (t : Option String)
  | toolUse (id : Option String) (name : Option String) (input : Option Json)
  | toolResult (tid : Option String) (content : Option Json)
  | str (s : String)
  | other (j : Json)

/-- The `content` of a LangChain AI message chunk. -/
inductive LCChunkContent where
  | str (s : String)
  | arr (items : List LCItem)
  | single (item : LCItem)
  | nullc
  | prim (j : Json)

/-- A Claude-format assistant content block as produced by
`convertAIMessageLikeToClaudeMessage`. -/
inductive ClBlock where
  | text (t : String)
  | toolUse (id : Option String) (name : Option String) (input : Option Json)
  | toolResult (tid : Option String) (content : Option Json)
  | other (j : Json)

/-- Is the block a `tool_use` block? -/
def ClBlock.isToolUse : ClBlock → Bool
  | .toolUse _ _ _ => true
  | _ => false

/-- Blockwise conversion inside `convertContentToClaudeBlocks`' array
branch. -/
def convertLCItem : LCItem → ClBlock
  | .str s => .text s
  | .text t => .text (t.getD "")
  | .toolUse id name input => .toolUse id name (some (input.getD (Json.obj [])))
  | .toolResult tid c => .toolResult tid c
  | .other j => .other j

/-- `convertContentToClaudeBlocks`: falsy content yields `[]`, a string one
text block, an array its blockwise conversion, a single typed object a
one-block list, and any other truthy value a stringified text block.  (For
the single-object branch the source returns the block unmodified; the model
applies the same field defaults as the array branch.) -/
def convertContentToClaudeBlocks : LCChunkContent → List ClBlock
  | .nullc => []
  | .str s => if s = "" then [] else [.text s]
  | .arr items => items.map convertLCItem
  | .single it => [convertLCItem it]
  | .prim j => if j.truthy then [.text (Json.jsToString j)] else []

/-- A LangChain AI message or chunk, as far as
`convertAIMessageLikeToClaudeMessage` reads it (`stop_reason` models
`additional_kwargs?.stop_reason`). -/
structure AIMessageLike where
  content : LCChunkContent
  tool_calls : List LCToolCall := []
  stop_reason : Option String := none

/-- `createEmptyAIMessageChunk`: a blank chunk with `content: ""`. -/
def createEmptyAIMessageChunk : AIMessageLike :=
  { content := .str "" }

/-- The finalized Claude-format assistant message shape. -/
structure ClaudeMessage where
  role : String
  content : List ClBlock
  stop_reason : Option String

/-- The truthy ids of the `tool_use` blocks among converted content
blocks (`existingToolIds`). -/
def existingToolIdsOf (contentBlocks : List ClBlock) : List String :=
  contentBlocks.filterMap fun b => match b with
    | .toolUse (some i) _ _ => if i = "" then none else some i
    | _ => none

/-- `convertAIMessageLikeToClaudeMessage`: converts the chunk's content to
Claude blocks, then appends one `tool_use` block per tool call whose id is
not already present among the converted blocks.  `now` stands for the
`Date.now()` timestamp used for the fallback id of an id-less tool call. -/
def convertAIMessageLikeToClaudeMessage (now : String) (messageLike : Option AIMessageLike)
    (stopReason : Option String) : ClaudeMessage :=
  match messageLike with
  | none => { role := "assistant", content := [], stop_reason := stopReason }
  | some ml =>
    let contentBlocks := convertContentToClaudeBlocks ml.content
    let existingToolIds := existingToolIdsOf contentBlocks
    let toolBlocks :=
      (ml.tool_calls.filter fun tc =>
        match tc.id with
        | some i => !existingToolIds.contains i
        | none => true).map
        fun tc =>
          ClBlock.toolUse (some (truthyOr tc.id ("toolu_" ++ now))) (some tc.name)
            (some (tc.args.getD (Json.obj [])))
    { role := "assistant"
    , content := contentBlocks ++ toolBlocks
    , stop_reason :=
        match stopReason with
        | some s => some s
        | none => ml.stop_reason }

/-- One iteration of the tool-dispatch loop: record the block when it is a
`tool_use` block, skip it otherwise. -/
def pushToolUse (tr : List ClBlock) (b : ClBlock) : List ClBlock :=
  match b with
  | .toolUse _ _ _ => tr ++ [b]
  | _ => tr

/-- The tool-dispatch loop of `claude.server.js` (and of the LangChain
OpenAI variant): iterate the finalized message's content in order, awaiting
`onToolUse` on each `tool_use` block before moving to the next.  The
returned list is the ordered trace of `onToolUse` invocations. -/
def claudeDispatchLoop (content : List ClBlock) : List ClBlock :=
  content.foldl pushToolUse []

/-!
## Generic lemmas about the accumulation folds
-/

/-- The try-parse-then-push fold is a `filterMap` appended to the
accumulator. -/
theorem foldl_pushParsed_filterMap :
    ∀ (l : List AccToolCall) (acc : List FBlock),
      l.foldl pushParsed acc = acc ++ l.filterMap parsedToolBlock := by
  intro l
  induction l with
  | nil => intro acc; simp
  | cons x xs ih =>
    intro acc
    simp only [List.foldl_cons, List.filterMap_cons, pushParsed]
    cases hfx : parsedToolBlock x with
    | none => simpa [hfx] using ih acc
    | some b => simp [hfx, ih (acc ++ [b])]

/-- The finalize tool-block loop is a `filterMap` over the accumulated
calls. -/
theorem rawFinalToolBlocks_eq_filterMap (tcs : List AccToolCall) :
    rawFinalToolBlocks tcs = tcs.filterMap parsedToolBlock := by
  simpa [rawFinalToolBlocks] using foldl_pushParsed_filterMap tcs []

/-- The dispatch loop is the same `filterMap` over the accumulated calls. -/
theorem rawDispatchLoop_eq_filterMap (tcs : List AccToolCall) :
    rawDispatchLoop tcs = tcs.filterMap parsedToolBlock := by
  simpa [rawDispatchLoop] using foldl_pushParsed_filterMap tcs []

/-- Every block produced by parsing an accumulated call is a `tool_use`
block. -/
theorem parsedToolBlock_isToolUse (tc : AccToolCall) (b : FBlock)
    (h : parsedToolBlock tc = some b) : b.isToolUse = true := by
  unfold parsedToolBlock at h
  cases hp : Json.parse tc.arguments with
  | none => rw [hp] at h; simp at h
  | some j => rw [hp] at h; simp at h; rw [← h]; rfl

/-- All text deltas delivered by a stream, in order (`delta.content` of each
chunk that has a choice). -/
def textDeltas (evs : List (Option Choice)) : List String :=
  evs.filterMap fun ev => ev.bind Choice.content

/-- The accumulated text fragments after a stream are exactly its non-empty
text deltas, in order. -/
theorem streamAcc_content_spec :
    ∀ (evs : List (Option Choice)) (s : RawAggState),
      (evs.foldl rawStep s).accumulatedContent =
        s.accumulatedContent ++ (textDeltas evs).filter (fun t => t ≠ "") := by
  intro evs
  induction evs with
  | nil => intro s; simp [textDeltas]
  | cons ev evs ih =>
    intro s
    simp only [List.foldl_cons]
    rw [ih]
    have hstep : (rawStep s ev).accumulatedContent =
        s.accumulatedContent ++ (match ev.bind Choice.content with
          | some t => if t = "" then [] else [t]
          | none => []) := by
      cases ev with
      | none => simp [rawStep]
      | some ch =>
        cases hc : ch.content with
        | none =>
          simp only [rawStep, hc, Option.bind]
          cases ch.finish_reason with
          | none => simp
          | some fr => by_cases hfr : fr = "" <;> simp [hfr]
        | some t =>
          simp only [rawStep, hc, Option.bind]
          by_cases ht : t = ""
          · cases ch.finish_reason with
            | none => simp [ht]
            | some fr => by_cases hfr : fr = "" <;> simp [ht, hfr]
          · cases ch.finish_reason with
            | none => simp [ht]
            | some fr => by_cases hfr : fr = "" <;> simp [ht, hfr]
    rw [hstep]
    simp only [textDeltas, List.filterMap_cons]
    cases hb : ev.bind Choice.content with
    | none => simp
    | some t =>
      by_cases ht : t = "" <;> simp [ht, List.filter_cons, List.append_assoc]

/-- The text contents of a final content-block list, in order. -/
def textsOf (l : List FBlock) : List String :=
  l.filterMap fun b => match b with
    | .text t => some t
    | _ => none

/-- Text contents of a list of text blocks. -/
theorem textsOf_map_text (ts : List String) : textsOf (ts.map FBlock.text) = ts := by
  induction ts with
  | nil => rfl
  | cons t ts ih => simp [textsOf, List.filterMap_cons] at ih ⊢; exact ih

/-- Parsed tool blocks contribute no text content. -/
theorem textsOf_filterMap_parsed (tcs : List AccToolCall) :
    textsOf (tcs.filterMap parsedToolBlock) = [] := by
  induction tcs with
  | nil => rfl
  | cons tc tcs ih =>
    simp only [List.filterMap_cons]
    cases hp : parsedToolBlock tc with
    | none => exact ih
    | some b =>
      have hb := parsedToolBlock_isToolUse tc b hp
      cases b with
      | text t => simp [FBlock.isToolUse] at hb
      | toolUse id name input => simpa [textsOf, List.filterMap_cons] using ih

/-- Left-folding string concatenation ignores dropped empty elements. -/
theorem foldl_append_filter_ne (l : List String) :
    ∀ s : String,
      List.foldl (fun r t => r ++ t) s (l.filter (fun t => t ≠ "")) =
        List.foldl (fun r t => r ++ t) s l := by
  induction l with
  | nil => intro s; rfl
  | cons t ts ih =>
    intro s
    by_cases ht : t = ""
    · subst ht
      simp only [List.filter_cons, List.foldl_cons]
      simpa using ih s
    · simp only [List.filter_cons, ht, List.foldl_cons]
      simpa [ht] using ih (s ++ t)

/-- Joining a string list is unaffected by dropping its empty elements. -/
theorem join_filter_ne_empty (l : List String) :
    String.join (l.filter (fun t => t ≠ "")) = String.join l := by
  simpa [String.join] using foldl_append_filter_ne l ""

/-!
## Claim theorems
-/

/-- C6 counterexample: the raw variant's inline finish-reason mapping
(`README` `openai.server.js`, stream loop) does NOT map the provider code
`"length"` to the canonical max-tokens value: `"length"` passes through
unchanged, both in the mapping itself and in the `stop_reason` of a
finalized stream that terminated with `"length"` — refuting the claim that
the Finish-Reason Normalizer maps `"length"` to `"max_tokens"` for this
cited realization. -/
theorem rawFinish_length_passthrough_counterexample :
    mapRawFinish "length" = some "length" ∧
    (rawFinalMessage [some ⟨none, [], some "length"⟩]).stop_reason = some "length" ∧
    mapRawFinish "length" ≠ some "max_tokens" := by
  exact ⟨rfl, rfl, by simp [mapRawFinish]⟩

/-- C6 amended: the LangChain variant's normalizer `mapOpenAiFinishReason`
maps the provider code `"stop"` to the canonical end-of-turn value
`"end_turn"`, maps `"length"` to the canonical max-tokens value
`"max_tokens"`, maps the tool-calling termination code `"tool_calls"` to
the canonical tool-invocation-pending value (which in this code is `null`,
coinciding with the unknown value) and in particular not to end-of-turn,
passes any other non-empty code through unchanged, and maps a null/absent
code to `null` without raising.  The raw variant's inline mapping agrees on
`"stop"` and `"tool_calls"`, but maps only those two codes: `"length"`
(like every other non-null code) passes through unchanged there instead of
becoming the max-tokens value. -/
theorem mapOpenAiFinishReason_spec (s : String) (h1 : s ≠ "stop") (h2 : s ≠ "length")
    (h3 : s ≠ "tool_calls") (h4 : s ≠ "") :
    mapOpenAiFinishReason (some "stop") = some "end_turn" ∧
    mapOpenAiFinishReason (some "length") = some "max_tokens" ∧
    mapOpenAiFinishReason (some "tool_calls") = none ∧
    mapOpenAiFinishReason (some "tool_calls") ≠ some "end_turn" ∧
    mapOpenAiFinishReason (some s) = some s ∧
    mapOpenAiFinishReason none = none ∧
    mapRawFinish "stop" = some "end_turn" ∧
    mapRawFinish "tool_calls" = none ∧
    mapRawFinish "tool_calls" ≠ some "end_turn" ∧
    mapRawFinish "length" = some "length" ∧
    mapRawFinish "length" ≠ some "max_tokens" ∧
    mapRawFinish s = some s := by
  refine ⟨rfl, rfl, rfl, by simp [mapOpenAiFinishReason], ?_, rfl, rfl, rfl,
    by simp [mapRawFinish], rfl, by simp [mapRawFinish], ?_⟩
  · simp [mapOpenAiFinishReason, h1, h2, h3, h4]
  · simp [mapRawFinish, h1, h3]

/-- Witness for C6 at the concrete unmapped code `"content_filter"`. -/
theorem mapOpenAiFinishReason_spec_witness :
    mapOpenAiFinishReason (some "content_filter") = some "content_filter" ∧
    mapOpenAiFinishReason (some "stop") = some "end_turn" := by
  have h := mapOpenAiFinishReason_spec "content_filter" (by decide) (by decide) (by decide)
    (by decide)
  exact ⟨h.2.2.2.2.1, h.1⟩

/-- C8: an empty provider stream still finalizes: the LangChain path
converts the blank chunk (with a null stop reason) to an assistant message
with empty content and a null stop reason, and the raw variant's finalize on
an event-less stream yields the same; both are total functions, so
finalization never fails. -/
theorem emptyStream_finalizes (now : String) :
    convertAIMessageLikeToClaudeMessage now (some createEmptyAIMessageChunk) none =
      { role := "assistant", content := [], stop_reason := none } ∧
    rawFinalMessage [] = { role := "assistant", content := [], stop_reason := none } := by
  exact ⟨rfl, rfl⟩

/-- C2 counterexample: feeding the text fragments `"Hel"` and `"lo"`
followed by a `"stop"` termination signal to the raw variant's aggregator
finalizes to a message with TWO text blocks, `"Hel"` and `"lo"` — not one
concatenated block `"Hello"` — refuting the claim that the finalized
message contains exactly one text block holding the concatenation. -/
theorem rawAggregator_per_fragment_counterexample :
    (rawFinalMessage
      [some ⟨some "Hel", [], none⟩, some ⟨some "lo", [], some "stop"⟩]).content =
      [FBlock.text "Hel", FBlock.text "lo"] ∧
    (rawFinalMessage
      [some ⟨some "Hel", [], none⟩, some ⟨some "lo", [], some "stop"⟩]).content.length ≠ 1 := by
  exact ⟨rfl, by decide⟩

/-- C2 amended: at finalize, the raw variant's aggregator emits one text
block per non-empty received text fragment, in arrival order (empty
fragments are dropped); the concatenation of those blocks is the full
streamed text, but the blocks are never merged into a single block. -/
theorem rawAggregator_text_blocks_spec (evs : List (Option Choice)) :
    textsOf (rawFinalMessage evs).content = (textDeltas evs).filter (fun t => t ≠ "") ∧
    String.join (textsOf (rawFinalMessage evs).content) = String.join (textDeltas evs) := by
  have hcontent : (rawFinalMessage evs).content =
      (streamAccState evs).accumulatedContent.map FBlock.text ++
        (streamAccState evs).accumulatedToolCalls.filterMap parsedToolBlock := by
    simp [rawFinalMessage, rawFinalToolBlocks_eq_filterMap]
  have htexts : textsOf (rawFinalMessage evs).content =
      (textDeltas evs).filter (fun t => t ≠ "") := by
    rw [hcontent]
    have : textsOf ((streamAccState evs).accumulatedContent.map FBlock.text ++
        (streamAccState evs).accumulatedToolCalls.filterMap parsedToolBlock) =
        (streamAccState evs).accumulatedContent := by
      simp only [textsOf, List.filterMap_append]
      rw [← textsOf, ← textsOf, textsOf_map_text, textsOf_filterMap_parsed,
        List.append_nil]
    rw [this]
    have hacc := streamAcc_content_spec evs {}
    simpa [streamAccState] using hacc
  exact ⟨htexts, by rw [htexts, join_filter_ne_empty]⟩

/-- Blocks kept by the parse loop all pass the `tool_use` filter. -/
theorem filter_isToolUse_parsed (tcs : List AccToolCall) :
    (tcs.filterMap parsedToolBlock).filter FBlock.isToolUse =
      tcs.filterMap parsedToolBlock := by
  apply List.filter_eq_self.mpr
  intro b hb
  obtain ⟨tc, _, htc⟩ := List.mem_filterMap.mp hb
  exact parsedToolBlock_isToolUse tc b htc

/-- Text blocks never pass the `tool_use` filter. -/
theorem filter_isToolUse_map_text (ts : List String) :
    (ts.map FBlock.text).filter FBlock.isToolUse = [] := by
  induction ts with
  | nil => rfl
  | cons t ts ih => simp [List.filter_cons, FBlock.isToolUse, ih]

/-- The sequential dispatch loop over Claude blocks appends exactly the
`tool_use` blocks, in order. -/
theorem claudeDispatchLoop_filter :
    ∀ (content : List ClBlock) (acc : List ClBlock),
      content.foldl pushToolUse acc = acc ++ content.filter ClBlock.isToolUse := by
  intro content
  induction content with
  | nil => intro acc; simp
  | cons b bs ih =>
    intro acc
    cases b with
    | text t => simpa [List.filter_cons, ClBlock.isToolUse, pushToolUse] using ih acc
    | toolUse i n inp =>
      simp only [List.foldl_cons, List.filter_cons, pushToolUse]
      rw [ih (acc ++ [ClBlock.toolUse i n inp])]
      simp [ClBlock.isToolUse]
    | toolResult tid c =>
      simpa [List.filter_cons, ClBlock.isToolUse, pushToolUse] using ih acc
    | other j => simpa [List.filter_cons, ClBlock.isToolUse, pushToolUse] using ih acc

/-- C5: `onToolUse` is dispatched exactly once per tool invocation of the
finalized message, in arrival order.  For the raw variant, the post-stream
dispatch trace equals the `tool_use` blocks of the finalized message in
order; for the LangChain variants' dispatch loop over the finalized
content, the trace equals the message's `tool_use` blocks in order.  In
both models the dispatch is a sequential left fold, so each invocation is
completed before the next one starts. -/
theorem toolDispatch_order_spec (evs : List (Option Choice)) (content : List ClBlock) :
    rawDispatchTrace evs = (rawFinalMessage evs).content.filter FBlock.isToolUse ∧
    claudeDispatchLoop content = content.filter ClBlock.isToolUse := by
  constructor
  · rw [rawDispatchTrace, rawDispatchLoop_eq_filterMap]
    have hcontent : (rawFinalMessage evs).content =
        (streamAccState evs).accumulatedContent.map FBlock.text ++
          (streamAccState evs).accumulatedToolCalls.filterMap parsedToolBlock := by
      simp [rawFinalMessage, rawFinalToolBlocks_eq_filterMap]
    rw [hcontent, List.filter_append, filter_isToolUse_map_text,
      filter_isToolUse_parsed, List.nil_append]
  · have h := claudeDispatchLoop_filter content []
    simpa [claudeDispatchLoop] using h

/-- C9: the outbound request builder reshapes every tool declaration
`{name, description, input_schema}` into
`{type: "function", function: {name, description, parameters}}` for
Provider B (`convertClaudeToolsToOpenAITools`), and for either provider an
absent or empty tool catalog causes the tools option to be omitted entirely
(`undefined`) — none of the three conversion paths ever produces an empty
tools array. -/
theorem toolCatalog_conversion_spec (tools : List ToolDecl) (t : Option (List ToolDecl))
    (h : tools ≠ []) :
    convertClaudeToolsToOpenAITools none = none ∧
    convertClaudeToolsToOpenAITools (some []) = none ∧
    claudeCallOptionsTools none = none ∧
    claudeCallOptionsTools (some []) = none ∧
    rawOpenaiTools none = none ∧
    rawOpenaiTools (some []) = none ∧
    convertClaudeToolsToOpenAITools t ≠ some [] ∧
    claudeCallOptionsTools t ≠ some [] ∧
    rawOpenaiTools t ≠ some [] ∧
    ∃ out, convertClaudeToolsToOpenAITools (some tools) = some out ∧
      out.length = tools.length ∧
      ∀ i, out.get? i = (tools.get? i).map fun td =>
        ⟨td.name, td.description.getD "", schemaOrDefault td.input_schema⟩ := by
  refine ⟨rfl, rfl, rfl, rfl, rfl, rfl, ?_, ?_, ?_, ?_⟩
  · cases t with
    | none => simp [convertClaudeToolsToOpenAITools]
    | some l =>
      cases l with
      | nil => simp [convertClaudeToolsToOpenAITools]
      | cons a l => simp [convertClaudeToolsToOpenAITools]
  · cases t with
    | none => simp [claudeCallOptionsTools]
    | some l =>
      cases l with
      | nil => simp [claudeCallOptionsTools]
      | cons a l => simp [claudeCallOptionsTools]
  · cases t with
    | none => simp [rawOpenaiTools]
    | some l =>
      cases l with
      | nil => simp [rawOpenaiTools]
      | cons a l => simp [rawOpenaiTools]
  · refine ⟨tools.map fun t => ⟨t.name, t.description.getD "", schemaOrDefault t.input_schema⟩,
      ?_, by simp, ?_⟩
    · simp [convertClaudeToolsToOpenAITools, List.isEmpty_eq_true, h]
    · intro i
      simp [List.get?_map]

/-- Witness for C9 at a concrete one-tool catalog. -/
theorem toolCatalog_conversion_spec_witness :
    convertClaudeToolsToOpenAITools
        (some [⟨"search_shop_catalog", some "Search the catalog", none⟩]) ≠ some [] ∧
    claudeCallOptionsTools
        (some [⟨"search_shop_catalog", some "Search the catalog", none⟩]) ≠ some [] := by
  have h := toolCatalog_conversion_spec
    [⟨"search_shop_catalog", some "Search the catalog", none⟩]
    (some [⟨"search_shop_catalog", some "Search the catalog", none⟩]) (by simp)
  exact ⟨h.2.2.2.2.2.2.1, h.2.2.2.2.2.2.2.1⟩

/-- C4: if one accumulated tool invocation's argument text fails to parse
as JSON at finalize, only that invocation is dropped: the finalized message
still carries every sibling whose arguments do parse (in order), and the
dispatch trace passes exactly those same siblings to `onToolUse`; the
finalize and dispatch functions are total, so the turn always completes. -/
theorem rawFinalize_parse_failure_spec (evs : List (Option Choice))
    (l1 l2 : List AccToolCall) (bad : AccToolCall)
    (hacc : (streamAccState evs).accumulatedToolCalls = l1 ++ bad :: l2)
    (hbad : Json.parse bad.arguments = none) :
    (rawFinalMessage evs).content =
      (streamAccState evs).accumulatedContent.map FBlock.text ++
        (l1.filterMap parsedToolBlock ++ l2.filterMap parsedToolBlock) ∧
    rawDispatchTrace evs = l1.filterMap parsedToolBlock ++ l2.filterMap parsedToolBlock := by
  have hparse : parsedToolBlock bad = none := by simp [parsedToolBlock, hbad]
  have hfm : (l1 ++ bad :: l2).filterMap parsedToolBlock =
      l1.filterMap parsedToolBlock ++ l2.filterMap parsedToolBlock := by
    simp [List.filterMap_append, List.filterMap_cons, hparse]
  constructor
  · simp only [rawFinalMessage, rawFinalToolBlocks_eq_filterMap, hacc, hfm]
  · simp only [rawDispatchTrace, rawDispatchLoop_eq_filterMap, hacc, hfm]

/-- Witness for C4: a stream delivering one parseable invocation
(arguments `"{}"`) and one sibling whose arguments `"{"` never form valid
JSON; the sibling with valid arguments survives finalize and dispatch. -/
theorem rawFinalize_parse_failure_spec_witness :
    (rawFinalMessage
        [some ⟨none, [⟨0, some "a", some "good", some "\x7b\x7d"⟩,
          ⟨1, some "b", some "bad", some "\x7b"⟩], none⟩]).content =
      (streamAccState
        [some ⟨none, [⟨0, some "a", some "good", some "\x7b\x7d"⟩,
          ⟨1, some "b", some "bad", some "\x7b"⟩], none⟩]).accumulatedContent.map FBlock.text ++
        (([⟨"a", "good", "\x7b\x7d"⟩] : List AccToolCall).filterMap parsedToolBlock ++
          ([] : List AccToolCall).filterMap parsedToolBlock) ∧
    rawDispatchTrace
        [some ⟨none, [⟨0, some "a", some "good", some "\x7b\x7d"⟩,
          ⟨1, some "b", some "bad", some "\x7b"⟩], none⟩] =
      ([⟨"a", "good", "\x7b\x7d"⟩] : List AccToolCall).filterMap parsedToolBlock ++
        ([] : List AccToolCall).filterMap parsedToolBlock := by
  exact rawFinalize_parse_failure_spec
    [some ⟨none, [⟨0, some "a", some "good", some "\x7b\x7d"⟩,
      ⟨1, some "b", some "bad", some "\x7b"⟩], none⟩]
    [⟨"a", "good", "\x7b\x7d"⟩] [] ⟨"b", "bad", "\x7b"⟩ rfl rfl

/-- The ids (the `id` field as it stands) of the `tool_use` blocks of a
content list, in order. -/
def toolUseIds (content : List ClBlock) : List (Option String) :=
  content.filterMap fun b => match b with
    | .toolUse i _ _ => some i
    | _ => none

/-- C10 counterexample: a chunk whose `tool_calls` list holds two calls with
the same id `"a"` (and no content blocks) converts to a message whose
content carries TWO `tool_use` blocks with id `"a"` — the dedup filter only
checks the converted content blocks, not the `tool_calls` list itself — so
one tool-call id contributes two blocks, refuting the claimed invariant. -/
theorem convertAIMessage_duplicate_id_counterexample :
    toolUseIds (convertAIMessageLikeToClaudeMessage "0"
        (some ⟨.str "", [⟨some "a", "f", none⟩, ⟨some "a", "g", none⟩], none⟩) none).content =
      [some "a", some "a"] ∧
    ¬ (toolUseIds (convertAIMessageLikeToClaudeMessage "0"
        (some ⟨.str "", [⟨some "a", "f", none⟩, ⟨some "a", "g", none⟩], none⟩) none).content).Nodup := by
  exact ⟨rfl, by decide⟩

/-- A `some`-id member of `toolUseIds` with a non-empty id is recorded in
`existingToolIdsOf`. -/
theorem mem_existingToolIds_of_mem_toolUseIds (cb : List ClBlock) (s : String)
    (hs : s ≠ "") (h : some s ∈ toolUseIds cb) : s ∈ existingToolIdsOf cb := by
  obtain ⟨b, hb, hfb⟩ := List.mem_filterMap.mp h
  cases b with
  | text t => simp at hfb
  | toolUse i n inp =>
    simp only [Option.some.injEq] at hfb
    subst hfb
    exact List.mem_filterMap.mpr ⟨ClBlock.toolUse (some s) n inp, hb, by simp [hs]⟩
  | toolResult tid c => simp at hfb
  | other j => simp at hfb

/-- C10 amended: a tool call whose id already appears among the converted
content blocks is filtered out rather than appended a second time — every
appended block carries an id outside `existingToolIdsOf` — and therefore,
provided the converted content blocks' tool ids are pairwise distinct and
the `tool_calls` list itself carries pairwise-distinct non-empty ids, the
produced message never holds two `tool_use` blocks with the same id.  (The
filter cannot dedup duplicates inside the `tool_calls` list itself, as the
counterexample shows.) -/
theorem convertAIMessage_id_filter_spec (now : String) (ml : AIMessageLike)
    (stopReason : Option String)
    (hc : (toolUseIds (convertContentToClaudeBlocks ml.content)).Nodup)
    (hids : ∀ tc ∈ ml.tool_calls, tc.id.getD "" ≠ "")
    (hnd : (ml.tool_calls.map LCToolCall.id).Nodup) :
    (((convertAIMessageLikeToClaudeMessage now (some ml) stopReason).content.drop
        (convertContentToClaudeBlocks ml.content).length).all
      (fun b => match b with
        | ClBlock.toolUse (some i) _ _ =>
            !(existingToolIdsOf (convertContentToClaudeBlocks ml.content)).contains i
        | _ => false)) = true ∧
    (toolUseIds (convertAIMessageLikeToClaudeMessage now (some ml) stopReason).content).Nodup := by
  have hexists : ∀ tc ∈ ml.tool_calls, ∃ s, tc.id = some s ∧ s ≠ "" := by
    intro tc htc
    have hgd := hids tc htc
    cases hid : tc.id with
    | none => rw [hid] at hgd; simp at hgd
    | some s => rw [hid] at hgd; exact ⟨s, rfl, by simpa using hgd⟩
  have hmsg : (convertAIMessageLikeToClaudeMessage now (some ml) stopReason).content =
      convertContentToClaudeBlocks ml.content ++
        ((ml.tool_calls.filter fun tc =>
          match tc.id with
          | some i => !(existingToolIdsOf (convertContentToClaudeBlocks ml.content)).contains i
          | none => true).map fun tc =>
            ClBlock.toolUse (some (truthyOr tc.id ("toolu_" ++ now))) (some tc.name)
              (some (tc.args.getD (Json.obj [])))) := rfl
  have hkept_sub : ∀ tc ∈ (ml.tool_calls.filter fun tc =>
      match tc.id with
      | some i => !(existingToolIdsOf (convertContentToClaudeBlocks ml.content)).contains i
      | none => true), tc ∈ ml.tool_calls := fun tc htc => List.mem_of_mem_filter htc
  have hkept_pred : ∀ tc ∈ (ml.tool_calls.filter fun tc =>
      match tc.id with
      | some i => !(existingToolIdsOf (convertContentToClaudeBlocks ml.content)).contains i
      | none => true), ∀ i, tc.id = some i →
      i ∉ existingToolIdsOf (convertContentToClaudeBlocks ml.content) := by
    intro tc htc i hi hmem
    have hp := List.of_mem_filter htc
    rw [hi] at hp
    have hcont := List.elem_eq_true_of_mem hmem
    simp only [List.contains] at hp ⊢
    rw [hcont] at hp
    simp at hp
  constructor
  · rw [hmsg, List.drop_left, List.all_eq_true]
    intro b hb
    obtain ⟨tc, htc, hbeq⟩ := List.mem_map.mp hb
    obtain ⟨s, hs, hsne⟩ := hexists tc (hkept_sub tc htc)
    have hnotmem := hkept_pred tc htc s hs
    have htr : truthyOr tc.id ("toolu_" ++ now) = s := by
      rw [hs]; simp [truthyOr, hsne]
    rw [← hbeq, htr]
    simp only [Bool.not_eq_true']
    by_contra hcontr
    simp only [Bool.not_eq_false] at hcontr
    exact hnotmem (List.elem_iff.mp hcontr)
  · rw [hmsg]
    have hsplit : toolUseIds (convertContentToClaudeBlocks ml.content ++
        ((ml.tool_calls.filter fun tc =>
          match tc.id with
          | some i => !(existingToolIdsOf (convertContentToClaudeBlocks ml.content)).contains i
          | none => true).map fun tc =>
            ClBlock.toolUse (some (truthyOr tc.id ("toolu_" ++ now))) (some tc.name)
              (some (tc.args.getD (Json.obj []))))) =
        toolUseIds (convertContentToClaudeBlocks ml.content) ++
          toolUseIds ((ml.tool_calls.filter fun tc =>
            match tc.id with
            | some i => !(existingToolIdsOf (convertContentToClaudeBlocks ml.content)).contains i
            | none => true).map fun tc =>
              ClBlock.toolUse (some (truthyOr tc.id ("toolu_" ++ now))) (some tc.name)
                (some (tc.args.getD (Json.obj [])))) := by
      simp [toolUseIds, List.filterMap_append]
    rw [hsplit]
    have hids_map : ∀ l : List LCToolCall,
        toolUseIds (l.map fun tc =>
          ClBlock.toolUse (some (truthyOr tc.id ("toolu_" ++ now))) (some tc.name)
            (some (tc.args.getD (Json.obj [])))) =
          l.map (fun tc => some (truthyOr tc.id ("toolu_" ++ now))) := by
      intro l
      induction l with
      | nil => rfl
      | cons a l ih => simp only [List.map_cons, toolUseIds, List.filterMap_cons] at ih ⊢; simp [ih]
    rw [hids_map]
    have hmap_id : (ml.tool_calls.filter fun tc =>
        match tc.id with
        | some i => !(existingToolIdsOf (convertContentToClaudeBlocks ml.content)).contains i
        | none => true).map (fun tc => some (truthyOr tc.id ("toolu_" ++ now))) =
        (ml.tool_calls.filter fun tc =>
        match tc.id with
        | some i => !(existingToolIdsOf (convertContentToClaudeBlocks ml.content)).contains i
        | none => true).map LCToolCall.id := by
      apply List.map_congr_left
      intro tc htc
      obtain ⟨s, hs, hsne⟩ := hexists tc (hkept_sub tc htc)
      rw [hs]
      simp [truthyOr, hsne]
    rw [hmap_id]
    rw [List.nodup_append]
    refine ⟨hc, ?_, ?_⟩
    · exact List.Nodup.sublist (List.Sublist.map LCToolCall.id (List.filter_sublist _)) hnd
    · intro x hx1 hx2
      obtain ⟨tc, htc, hxeq⟩ := List.mem_map.mp hx2
      obtain ⟨s, hs, hsne⟩ := hexists tc (hkept_sub tc htc)
      have hxs : x = some s := by rw [← hxeq, hs]
      subst hxs
      exact hkept_pred tc htc s hs (mem_existingToolIds_of_mem_toolUseIds _ s hsne hx1)

/-- A concrete chunk for exercising the id-dedup filter: one `tool_use`
block with id `"a"` already in content, plus tool calls with ids `"a"`
(already present) and `"b"` (new). -/
def c10WitnessChunk : AIMessageLike :=
  ⟨.arr [LCItem.toolUse (some "a") (some "f") none],
   [⟨some "a", "f", some (Json.obj [])⟩, ⟨some "b", "g", none⟩], none⟩

/-- Witness for the amended C10 theorem at `c10WitnessChunk`. -/
theorem convertAIMessage_id_filter_spec_witness :
    (((convertAIMessageLikeToClaudeMessage "123" (some c10WitnessChunk) none).content.drop
        (convertContentToClaudeBlocks c10WitnessChunk.content).length).all
      (fun b => match b with
        | ClBlock.toolUse (some i) _ _ =>
            !(existingToolIdsOf (convertContentToClaudeBlocks c10WitnessChunk.content)).contains i
        | _ => false)) = true ∧
    (toolUseIds (convertAIMessageLikeToClaudeMessage "123"
        (some c10WitnessChunk) none).content).Nodup := by
  exact convertAIMessage_id_filter_spec "123" c10WitnessChunk none (by decide) (by decide)
    (by decide)

/-- C3 counterexample: with a canonical system message `"X"` already in the
history and a supplied instruction `"S"`, `buildLangChainMessages` still
prepends the instruction as the leading system entry (and drops the
canonical system message), so the claimed skip of the prepend does not
happen. -/
theorem buildLangChain_system_prepend_counterexample :
    buildLangChainMessages [{ role := "system", content := .str "X" }] (some "S") =
      [LCMessage.system "S"] ∧
    hasSystemMessage [{ role := "system", content := CContent.str "X" }] = true := by
  exact ⟨rfl, rfl⟩

/-- The tool-result split only ever appends `ToolMessage`s. -/
theorem toolSplitStep_fold_spec :
    ∀ (l : List CItem) (acc : List LCMessage),
      ∃ app, l.foldl toolSplitStep acc = acc ++ app ∧
        app.countP LCMessage.isSystem = 0 := by
  intro l
  induction l with
  | nil => intro acc; exact ⟨[], by simp, rfl⟩
  | cons x xs ih =>
    intro acc
    obtain ⟨app, heq, hcount⟩ := ih (toolSplitStep acc x)
    have hstep : ∃ e, toolSplitStep acc x = acc ++ [e] ∧ LCMessage.isSystem e = false := by
      cases x <;> exact ⟨_, rfl, rfl⟩
    obtain ⟨e, he, hes⟩ := hstep
    refine ⟨e :: app, ?_, ?_⟩
    · simp only [List.foldl_cons]
      rw [heq, he, List.append_assoc]
      rfl
    · simp [List.countP_cons, hes, hcount]

/-- Each loop iteration of `buildLangChainMessages` only appends, and never
appends a `SystemMessage`. -/
theorem buildStep_spec (acc : List LCMessage) (m : CMessage) :
    ∃ app, buildStep acc m = acc ++ app ∧ app.countP LCMessage.isSystem = 0 := by
  unfold buildStep
  split_ifs with h1 h2 h3 h4 h5
  · exact ⟨[], by simp, rfl⟩
  · exact ⟨[.ai (normalizeContent m.content) (extractToolCalls m.content)], rfl,
      by simp [LCMessage.isSystem]⟩
  · cases hc : m.content with
    | items l => exact toolSplitStep_fold_spec l acc
    | str s => exact ⟨[], by simp [toolResultSplit], rfl⟩
    | single b => exact ⟨[], by simp [toolResultSplit], rfl⟩
    | nullc => exact ⟨[], by simp [toolResultSplit], rfl⟩
    | other j => exact ⟨[], by simp [toolResultSplit], rfl⟩
  · exact ⟨[.human (normalizeContent m.content)], rfl, by simp [LCMessage.isSystem]⟩
  · exact ⟨[.tool (serializeToolResultCContent m.content)
      (truthyOr m.tool_call_id (truthyOr m.id ("tool_" ++ toString acc.length)))], rfl,
      by simp [LCMessage.isSystem]⟩
  · exact ⟨[], by simp, rfl⟩

/-- The whole conversion loop appends no `SystemMessage` to its starting
accumulator. -/
theorem buildFold_spec :
    ∀ (ms : List CMessage) (acc : List LCMessage),
      ∃ app, ms.foldl buildStep acc = acc ++ app ∧ app.countP LCMessage.isSystem = 0 := by
  intro ms
  induction ms with
  | nil => intro acc; exact ⟨[], by simp, rfl⟩
  | cons m ms ih =>
    intro acc
    obtain ⟨app1, heq1, hc1⟩ := buildStep_spec acc m
    obtain ⟨app2, heq2, hc2⟩ := ih (buildStep acc m)
    refine ⟨app1 ++ app2, ?_, ?_⟩
    · simp only [List.foldl_cons]
      rw [heq2, heq1, List.append_assoc]
    · rw [List.countP_append, hc1, hc2]

/-- C3 amended: a non-empty system instruction is ALWAYS prepended as the
dedicated leading system message; duplication is instead avoided by
skipping every canonical system message in the history during conversion,
so the built list holds exactly one system entry (the instruction) when an
instruction is supplied and none otherwise. -/
theorem buildLangChain_system_handling (messages : List CMessage) (s : String)
    (hs : s ≠ "") :
    (∃ rest, buildLangChainMessages messages (some s) = LCMessage.system s :: rest ∧
      rest.countP LCMessage.isSystem = 0) ∧
    (buildLangChainMessages messages none).countP LCMessage.isSystem = 0 := by
  constructor
  · obtain ⟨app, heq, hcount⟩ := buildFold_spec messages [LCMessage.system s]
    refine ⟨app, ?_, hcount⟩
    unfold buildLangChainMessages
    simp only [hs, if_false]
    simpa using heq
  · obtain ⟨app, heq, hcount⟩ := buildFold_spec messages []
    unfold buildLangChainMessages
    simpa [heq] using hcount

/-- Witness for the amended C3 theorem on a history holding a canonical
system message. -/
theorem buildLangChain_system_handling_witness :
    (∃ rest, buildLangChainMessages
        [{ role := "system", content := .str "X" }, { role := "user", content := .str "hi" }]
        (some "S") = LCMessage.system "S" :: rest ∧
      rest.countP LCMessage.isSystem = 0) ∧
    (buildLangChainMessages
        [{ role := "system", content := .str "X" }, { role := "user", content := .str "hi" }]
        none).countP LCMessage.isSystem = 0 := by
  exact buildLangChain_system_handling
    [{ role := "system", content := .str "X" }, { role := "user", content := .str "hi" }]
    "S" (by decide)

/-- Unfolding equation of the conversion loop. -/
theorem convertLoop_cons (hasSys : Bool) (m : CMessage) (rest : List CMessage) :
    convertLoop hasSys (m :: rest) =
      (stepEmit hasSys m (batchOf rest.head?)).1 ++
        convertLoop hasSys
          (if (stepEmit hasSys m (batchOf rest.head?)).2 then rest.tail else rest) := by
  rw [convertLoop]

/-- A following message that is not a tool-result batch offers no batch. -/
theorem batchOf_eq_none_of_not_batch (n : CMessage) (h : isBatchMsg n = false) :
    batchOf (some n) = none := by
  unfold batchOf
  unfold isBatchMsg at h
  by_cases hr : n.role = "user"
  · simp only [hr, if_true]
    cases hc : n.content with
    | items l =>
      rw [hc] at h
      simp only [hr] at h
      simp only [decide_True, Bool.true_and] at h
      simp [h]
    | str s => simp
    | single b => simp
    | nullc => simp
    | other j => simp
  · simp [hr]

/-- With no batch on offer, a step never consumes the following message. -/
theorem stepEmit_none_not_consumed (hasSys : Bool) (m : CMessage) :
    (stepEmit hasSys m none).2 = false := by
  unfold stepEmit
  by_cases h1 : (m.role = "system" && !hasSys) = true
  · simp [h1]
  · simp only [Bool.not_eq_true] at h1
    by_cases h2 : m.role = "assistant"
    · cases hc : m.content with
      | items items =>
        by_cases h3 : (assistantToolCalls items).isEmpty <;>
          simp [h1, h2, h3]
      | str s => simp [h1, h2]
      | single b => simp [h1, h2]
      | nullc => simp [h1, h2]
      | other j => simp [h1, h2]
    · by_cases h3 : m.role = "user"
      · cases hc : m.content with
        | items items =>
          by_cases h4 : hasToolResults items <;> simp [h1, h2, h3, h4]
        | str s => simp [h1, h2, h3]
        | single b => simp [h1, h2, h3]
        | nullc => simp [h1, h2, h3]
        | other j => simp [h1, h2, h3]
      · simp [h1, h2, h3]

/-- Converting a history splits at any suffix whose first message is not a
tool-result batch (only a batch can be consumed across the cut). -/
theorem convertLoop_append (hasSys : Bool) (pre rest : List CMessage)
    (h : ∀ n, rest.head? = some n → isBatchMsg n = false) :
    convertLoop hasSys (pre ++ rest) = convertLoop hasSys pre ++ convertLoop hasSys rest :=
  match pre with
  | [] => by simp [convertLoop]
  | [m] => by
    have hb : batchOf rest.head? = none := by
      cases hr : rest.head? with
      | none => rfl
      | some n => exact batchOf_eq_none_of_not_batch n (h n hr)
    have hnone : batchOf (List.head? ([] : List CMessage)) = none := rfl
    rw [List.singleton_append, convertLoop_cons, hb, stepEmit_none_not_consumed]
    conv_rhs => rw [convertLoop_cons]
    rw [hnone, stepEmit_none_not_consumed]
    simp [convertLoop]
  | m :: m2 :: pre' => by
    have ih1 := convertLoop_append hasSys pre' rest h
    have ih2 := convertLoop_append hasSys (m2 :: pre') rest h
    rw [List.cons_append] at ih2
    have hcons : (m :: m2 :: pre') ++ rest = m :: (m2 :: (pre' ++ rest)) := by simp
    rw [hcons, convertLoop_cons]
    conv_rhs => rw [convertLoop_cons]
    simp only [List.head?_cons, List.tail_cons]
    by_cases hc : (stepEmit hasSys m (batchOf (some m2))).2 = true
    · rw [if_pos hc, if_pos hc, ih1, List.append_assoc]
    · rw [if_neg hc, if_neg hc, ih2, List.append_assoc]
termination_by pre.length
decreasing_by
  all_goals simp [List.length_cons] <;> omega

/-- With no batch, the correlated replies degenerate to the empty-content
replies. -/
theorem toolReplies_nil (tcs : List OToolCall) :
    toolReplies tcs [] = emptyToolReplies tcs := by
  rfl

/-- Step of an assistant message holding tool calls when the following
message offers a tool-result batch: the assistant entry, the correlated
replies, the trailing text user message — and the batch is consumed. -/
theorem stepEmit_assistant_some (hasSys : Bool) (m : CMessage) (items nitems : List CItem)
    (hrole : m.role = "assistant") (hcontent : m.content = CContent.items items)
    (hne : assistantToolCalls items ≠ []) :
    stepEmit hasSys m (some nitems) =
      (asstEntry items ::
        (toolReplies (assistantToolCalls items) nitems ++ trailingUserMessages nitems),
       true) := by
  cases hl : assistantToolCalls items with
  | nil => exact absurd hl hne
  | cons a l =>
    unfold stepEmit
    simp [hrole, hcontent, hl]

/-- Step of an assistant message holding tool calls when no batch follows:
the assistant entry plus one empty reply per call, nothing consumed. -/
theorem stepEmit_assistant_none (hasSys : Bool) (m : CMessage) (items : List CItem)
    (hrole : m.role = "assistant") (hcontent : m.content = CContent.items items)
    (hne : assistantToolCalls items ≠ []) :
    stepEmit hasSys m none =
      (asstEntry items :: emptyToolReplies (assistantToolCalls items), false) := by
  cases hl : assistantToolCalls items with
  | nil => exact absurd hl hne
  | cons a l =>
    unfold stepEmit
    simp [hrole, hcontent, hl]

/-- An assistant message is never itself a tool-result batch. -/
theorem isBatchMsg_false_of_assistant (m : CMessage) (hrole : m.role = "assistant") :
    isBatchMsg m = false := by
  simp [isBatchMsg, hrole]

/-- C1: for every canonical history containing an assistant message that
issues N tool invocations (in an array content), the built OpenAI request
places, immediately after the converted assistant entry, the reply block
`toolReplies` — exactly N consecutive tool-role entries, one per invocation
id in invocation order, each carrying the correlated tool result's
serialized content or `""` when the following batch (if any) supplies no
matching result — followed only by material belonging to later history
(`tail`); it therefore never emits fewer than N. -/
theorem providerB_tool_replies_spec (instr : Option String) (pre suf : List CMessage)
    (m : CMessage) (items : List CItem)
    (hrole : m.role = "assistant") (hcontent : m.content = CContent.items items)
    (hne : assistantToolCalls items ≠ []) :
    ∃ tail,
      buildOpenAIMessages instr (pre ++ m :: suf) =
        systemPrefix instr (pre ++ m :: suf) ++
          convertLoop (hasSystemMessage (pre ++ m :: suf)) pre ++
          (asstEntry items ::
            (toolReplies (assistantToolCalls items) ((batchOf suf.head?).getD []) ++ tail)) ∧
      (toolReplies (assistantToolCalls items) ((batchOf suf.head?).getD [])).length =
        (assistantToolCalls items).length ∧
      (∀ k, (toolReplies (assistantToolCalls items) ((batchOf suf.head?).getD [])).get? k =
        ((assistantToolCalls items).get? k).map fun tc =>
          toolReplyMsg tc.id (toolReplyContent ((batchOf suf.head?).getD []) tc.id)) := by
  have hnotbatch : ∀ n, (m :: suf).head? = some n → isBatchMsg n = false := by
    intro n hn
    simp only [List.head?_cons, Option.some.injEq] at hn
    rw [← hn]
    exact isBatchMsg_false_of_assistant m hrole
  have happ := convertLoop_append (hasSystemMessage (pre ++ m :: suf)) pre (m :: suf) hnotbatch
  have hlen : ∀ b : List CItem, (toolReplies (assistantToolCalls items) b).length =
      (assistantToolCalls items).length := by
    intro b; simp [toolReplies]
  have hget : ∀ (b : List CItem) k,
      (toolReplies (assistantToolCalls items) b).get? k =
        ((assistantToolCalls items).get? k).map fun tc =>
          toolReplyMsg tc.id (toolReplyContent b tc.id) := by
    intro b k; simp [toolReplies, List.get?_map]
  cases hb : batchOf suf.head? with
  | some nitems =>
    refine ⟨trailingUserMessages nitems ++
      convertLoop (hasSystemMessage (pre ++ m :: suf)) suf.tail, ?_, hlen _, hget _⟩
    unfold buildOpenAIMessages
    rw [happ, convertLoop_cons, hb,
      stepEmit_assistant_some _ m items nitems hrole hcontent hne]
    simp [List.append_assoc]
  | none =>
    refine ⟨convertLoop (hasSystemMessage (pre ++ m :: suf)) suf, ?_, hlen _, hget _⟩
    unfold buildOpenAIMessages
    rw [happ, convertLoop_cons, hb,
      stepEmit_assistant_none _ m items hrole hcontent hne]
    simp only [Option.getD_none, toolReplies_nil]
    simp [List.append_assoc]

/-- A one-invocation assistant content for the C1 witness. -/
def c1Items : List CItem := [CItem.toolUse "id1" "search" (Json.obj [])]

/-- The C1 witness's assistant message. -/
def c1Asst : CMessage := ⟨"assistant", CContent.items c1Items, none, none⟩

/-- Witness for C1 at a one-message history with one tool invocation and no
following batch. -/
theorem providerB_tool_replies_spec_witness :
    ∃ tail,
      buildOpenAIMessages none ([] ++ c1Asst :: []) =
        systemPrefix none ([] ++ c1Asst :: []) ++
          convertLoop (hasSystemMessage ([] ++ c1Asst :: [])) [] ++
          (asstEntry c1Items ::
            (toolReplies (assistantToolCalls c1Items)
              ((batchOf (List.head? ([] : List CMessage))).getD []) ++ tail)) ∧
      (toolReplies (assistantToolCalls c1Items)
        ((batchOf (List.head? ([] : List CMessage))).getD [])).length =
        (assistantToolCalls c1Items).length ∧
      (∀ k, (toolReplies (assistantToolCalls c1Items)
          ((batchOf (List.head? ([] : List CMessage))).getD [])).get? k =
        ((assistantToolCalls c1Items).get? k).map fun tc =>
          toolReplyMsg tc.id
            (toolReplyContent ((batchOf (List.head? ([] : List CMessage))).getD []) tc.id)) := by
  exact providerB_tool_replies_spec none [] [] c1Asst c1Items rfl rfl (by decide)

/-- C7: when the tool-result batch following an assistant tool-call message
also carries non-tool-result text, the built OpenAI request emits that text
as exactly one separate user-role message positioned immediately after ALL
of the batch's tool-role replies — never before or between them — and
before any entry of the remaining history. -/
theorem providerB_trailing_text_spec (instr : Option String) (pre suf : List CMessage)
    (m n : CMessage) (items nitems : List CItem)
    (hrole : m.role = "assistant") (hcontent : m.content = CContent.items items)
    (hne : assistantToolCalls items ≠ [])
    (hnrole : n.role = "user") (hncontent : n.content = CContent.items nitems)
    (hnres : hasToolResults nitems = true)
    (htext : (batchTextPieces nitems).isEmpty = false) :
    buildOpenAIMessages instr (pre ++ m :: n :: suf) =
      systemPrefix instr (pre ++ m :: n :: suf) ++
        convertLoop (hasSystemMessage (pre ++ m :: n :: suf)) pre ++
        (asstEntry items ::
          (toolReplies (assistantToolCalls items) nitems ++
            ({ role := "user", content := some (joinedTextContent (batchTextPieces nitems)) } ::
              convertLoop (hasSystemMessage (pre ++ m :: n :: suf)) suf))) := by
  have hnotbatch : ∀ n2, (m :: n :: suf).head? = some n2 → isBatchMsg n2 = false := by
    intro n2 hn
    simp only [List.head?_cons, Option.some.injEq] at hn
    rw [← hn]
    exact isBatchMsg_false_of_assistant m hrole
  have happ := convertLoop_append (hasSystemMessage (pre ++ m :: n :: suf)) pre
    (m :: n :: suf) hnotbatch
  have hb : batchOf ((n :: suf).head?) = some nitems := by
    simp [batchOf, hnrole, hncontent, hnres]
  have htrail : trailingUserMessages nitems =
      [{ role := "user", content := some (joinedTextContent (batchTextPieces nitems)) }] := by
    simp [trailingUserMessages, htext]
  unfold buildOpenAIMessages
  rw [happ, convertLoop_cons, hb,
    stepEmit_assistant_some _ m items nitems hrole hcontent hne]
  simp only [List.tail_cons, if_pos]
  rw [htrail]
  simp [List.append_assoc]

/-- The C7 witness's tool-result batch: one correlated result plus leftover
text. -/
def c7Batch : List CItem :=
  [CItem.toolResult "id1" (some (Json.str "ok")), CItem.text (some "also this")]

/-- The C7 witness's user message carrying the batch. -/
def c7User : CMessage := ⟨"user", CContent.items c7Batch, none, none⟩

/-- Witness for C7 at a two-message history: one assistant invocation
answered by a batch that also carries text. -/
theorem providerB_trailing_text_spec_witness :
    buildOpenAIMessages none ([] ++ c1Asst :: c7User :: []) =
      systemPrefix none ([] ++ c1Asst :: c7User :: []) ++
        convertLoop (hasSystemMessage ([] ++ c1Asst :: c7User :: [])) [] ++
        (asstEntry c1Items ::
          (toolReplies (assistantToolCalls c1Items) c7Batch ++
            ({ role := "user", content := some (joinedTextContent (batchTextPieces c7Batch)) } ::
              convertLoop (hasSystemMessage ([] ++ c1Asst :: c7User :: [])) []))) := by
  exact providerB_trailing_text_spec none [] [] c1Asst c7User c1Items c7Batch rfl rfl
    (by decide) rfl rfl (by decide) (by decide)
